import Mathlib

/-!
Verification of the AI-triage pipeline core (file watcher, dispatch queue,
conversation batcher, sensitivity filter, triage queue) against its
natural-language specification.

The definitions below are a shallow embedding of the TypeScript sources:
  * `src/triage-queue.ts`   — the persisted triage item store,
  * `src/file-watcher.ts`   — debouncing, Teams batching, dispatch queue,
                              sensitivity filter, and the triage path,
  * `src/prompts/tolling-triage-prompt.ts` — response parsing (JSON layer
                              abstracted into a parse outcome),
  * `src/ollama-client.ts`  — failure modes of the classifier call.

Effectful TypeScript methods become pure functions on explicit state; the
persistence write (`save`) and listener notification (`notifyListeners`)
are recorded as effect labels.  Timers become explicit timed actions.
-/

namespace Triage

/-- The ten classification categories of `TriageCategory` in
`src/triage-queue.ts`. -/
inductive TriageCategory
  | DELIVERABLE_REVIEW
  | CHANGE_ORDER
  | TESTING_MILESTONE
  | INTEROPERABILITY_ISSUE
  | SYSTEM_ISSUE
  | MEETING_FOLLOWUP
  | VENDOR_CORRESPONDENCE
  | CLIENT_CORRESPONDENCE
  | INFORMATIONAL
  | UNCLEAR
deriving DecidableEq

/-- `TriageItemStatus` from `src/triage-queue.ts`. -/
inductive TriageItemStatus
  | pending
  | reviewed
  | dismissed
deriving DecidableEq

/-- The priority union type of `TriageSuggestion.priority`. -/
inductive Priority
  | critical
  | high
  | medium
  | low
deriving DecidableEq

/-- The urgency union type of `TriageSuggestion.interop.urgency`. -/
inductive InteropUrgency
  | critical
  | elevated
  | standard
deriving DecidableEq

/-- Deliverable-specific payload of a suggestion. -/
structure DeliverableInfo where
  type : String
  version : Option String := none
  vendor : Option String := none
  reviewDeadline : Option String := none
deriving DecidableEq

/-- Change-order-specific payload of a suggestion. -/
structure ChangeOrderInfo where
  coNumber : Option String := none
  proposedAmount : Option Rat := none
  affectedSystems : Option (List String) := none
deriving DecidableEq

/-- Testing-specific payload of a suggestion. -/
structure TestingInfo where
  phase : Option String := none
  scheduledStart : Option String := none
  scheduledEnd : Option String := none
deriving DecidableEq

/-- Interoperability-specific payload of a suggestion. -/
structure InteropInfo where
  homeAgency : Option String := none
  awayAgency : Option String := none
  urgency : Option InteropUrgency := none
deriving DecidableEq

/-- `TriageSuggestion` from `src/triage-queue.ts`.  Optional TypeScript
fields become `Option`; the numeric confidence is embedded as a rational. -/
structure TriageSuggestion where
  category : TriageCategory
  title : String
  client : Option String := none
  priority : Option Priority := none
  dueDate : Option String := none
  tags : Option (List String) := none
  confidence : Rat
  reasoning : Option String := none
  deliverable : Option DeliverableInfo := none
  changeOrder : Option ChangeOrderInfo := none
  testing : Option TestingInfo := none
  interop : Option InteropInfo := none
deriving DecidableEq

/-- `Partial<TriageSuggestion>` (the type of `userEdits`): every field may
be absent. -/
structure SuggestionPatch where
  category : Option TriageCategory := none
  title : Option String := none
  client : Option String := none
  priority : Option Priority := none
  dueDate : Option String := none
  tags : Option (List String) := none
  confidence : Option Rat := none
  reasoning : Option String := none
  deliverable : Option DeliverableInfo := none
  changeOrder : Option ChangeOrderInfo := none
  testing : Option TestingInfo := none
  interop : Option InteropInfo := none
deriving DecidableEq

/-- `TriageItem` from `src/triage-queue.ts`. -/
structure TriageItem where
  id : String
  filePath : String
  fileName : String
  triageTime : String
  suggestion : TriageSuggestion
  status : TriageItemStatus
  userEdits : Option SuggestionPatch := none
  actionTaken : Option String := none
  actionTime : Option String := none
  createdTaskPath : Option String := none
deriving DecidableEq

/-- `Partial<TriageItem>`, the update argument of `updateItem`.  A field
set to `none` is an absent (not provided) field; `updateItem` never reads
a provided `id`. -/
structure TriageItemUpdate where
  id : Option String := none
  filePath : Option String := none
  fileName : Option String := none
  triageTime : Option String := none
  suggestion : Option TriageSuggestion := none
  status : Option TriageItemStatus := none
  userEdits : Option SuggestionPatch := none
  actionTaken : Option String := none
  actionTime : Option String := none
  createdTaskPath : Option String := none
deriving DecidableEq

/-- Side effects of a mutating `TriageQueue` operation: `save` is the
persistence write of the whole collection, `notify` the synchronous
listener notification. -/
inductive QueueEffect
  | save
  | notify
deriving DecidableEq

/-- `filePath.split('/').pop() || filePath` from `addItem`: the last
path segment, falling back to the whole path when that segment is the
empty string (a falsy value in JavaScript). -/
def jsFileName (filePath : String) : String :=
  let last := ((filePath.splitOn "/").getLast?).getD ""
  if last = "" then filePath else last

/-- The item literal constructed inside `TriageQueue.addItem`; the id from
`generateId()` and the timestamp from `new Date().toISOString()` are
passed in explicitly. -/
def mkTriageItem (filePath : String) (suggestion : TriageSuggestion)
    (newId now : String) : TriageItem :=
  { id := newId
    filePath := filePath
    fileName := jsFileName filePath
    triageTime := now
    suggestion := suggestion
    status := .pending }

/-- `TriageQueue.addItem`: unconditionally constructs a fresh pending item,
appends it, persists and notifies.  Returns the created item, the new
collection, and the effects performed. -/
def addItem (items : List TriageItem) (filePath : String)
    (suggestion : TriageSuggestion) (newId now : String) :
    TriageItem × List TriageItem × List QueueEffect :=
  let item := mkTriageItem filePath suggestion newId now
  (item, items ++ [item], [.save, .notify])

/-- The field-by-field merge performed by `TriageQueue.updateItem` using
the `??` operator: a provided field overrides, an absent field keeps the
stored value; the id is always kept. -/
def mergeItem (e : TriageItem) (u : TriageItemUpdate) : TriageItem :=
  { id := e.id
    filePath := u.filePath.getD e.filePath
    fileName := u.fileName.getD e.fileName
    triageTime := u.triageTime.getD e.triageTime
    suggestion := u.suggestion.getD e.suggestion
    status := u.status.getD e.status
    userEdits := match u.userEdits with
      | some v => some v
      | none => e.userEdits
    actionTaken := match u.actionTaken with
      | some v => some v
      | none => e.actionTaken
    actionTime := match u.actionTime with
      | some v => some v
      | none => e.actionTime
    createdTaskPath := match u.createdTaskPath with
      | some v => some v
      | none => e.createdTaskPath }

/-- `findIndex` + in-place replacement of `updateItem`: rewrite the first
item whose id matches, returning the merged item and the new list. -/
def updateItemGo (idv : String) (u : TriageItemUpdate) :
    List TriageItem → Option (TriageItem × List TriageItem)
  | [] => none
  | it :: rest =>
    if it.id = idv then
      some (mergeItem it u, mergeItem it u :: rest)
    else
      match updateItemGo idv u rest with
      | none => none
      | some (r, rest2) => some (r, it :: rest2)

/-- `TriageQueue.updateItem`: `null` (here `none`) and an untouched
collection with no effects when the id is absent; otherwise the merged
item, the rewritten collection, persistence and notification. -/
def updateItem (items : List TriageItem) (idv : String) (u : TriageItemUpdate) :
    Option TriageItem × List TriageItem × List QueueEffect :=
  match updateItemGo idv u items with
  | none => (none, items, [])
  | some (r, items2) => (some r, items2, [.save, .notify])

/-- `findIndex` + `splice` of `removeItem`: drop the first item whose id
matches. -/
def removeItemGo (idv : String) : List TriageItem → Option (List TriageItem)
  | [] => none
  | it :: rest =>
    if it.id = idv then some rest
    else (removeItemGo idv rest).map (fun l => it :: l)

/-- `TriageQueue.removeItem`: `false` and an untouched collection with no
effects when the id is absent; otherwise removal, persistence,
notification. -/
def removeItem (items : List TriageItem) (idv : String) :
    Bool × List TriageItem × List QueueEffect :=
  match removeItemGo idv items with
  | none => (false, items, [])
  | some items2 => (true, items2, [.save, .notify])

/-- `TriageQueue.markReviewed`, a `updateItem` with status `reviewed`,
the action, the action time, and (only when given) the task path. -/
def markReviewed (items : List TriageItem) (idv action : String)
    (taskPath : Option String) (now : String) :
    Option TriageItem × List TriageItem × List QueueEffect :=
  updateItem items idv
    { status := some .reviewed
      actionTaken := some action
      actionTime := some now
      createdTaskPath := taskPath }

/-- `TriageQueue.dismissItem`, a `updateItem` with status `dismissed`. -/
def dismissItem (items : List TriageItem) (idv now : String) :
    Option TriageItem × List TriageItem × List QueueEffect :=
  updateItem items idv
    { status := some .dismissed
      actionTaken := some "dismissed"
      actionTime := some now }

/-- `TriageQueue.hasFilePath`: membership query for a pending item with
the given source path. -/
def hasFilePath (items : List TriageItem) (p : String) : Bool :=
  items.any fun it => it.filePath == p && it.status == TriageItemStatus.pending

/-- `TriageQueue.getPendingItems`. -/
def getPendingItems (items : List TriageItem) : List TriageItem :=
  items.filter fun it => it.status == TriageItemStatus.pending

/-- `TriageQueue.getPendingCount`. -/
def getPendingCount (items : List TriageItem) : Nat :=
  (getPendingItems items).length

/-- `TriageQueue.clearProcessed`: keep only pending items; persist and
notify only when something was removed. -/
def clearProcessed (items : List TriageItem) :
    Nat × List TriageItem × List QueueEffect :=
  let remaining := items.filter fun it => it.status == TriageItemStatus.pending
  let removed := items.length - remaining.length
  if removed > 0 then (removed, remaining, [.save, .notify])
  else (removed, remaining, [])

/-- A mutating operation on the triage queue, with all effectful inputs
(generated id, current timestamp) made explicit. -/
inductive QOp
  | add (path : String) (s : TriageSuggestion) (newId now : String)
  | update (idv : String) (u : TriageItemUpdate)
  | remove (idv : String)
  | review (idv action : String) (taskPath : Option String) (now : String)
  | dismiss (idv now : String)
  | clear

/-- The new collection after one queue operation. -/
def applyOp (items : List TriageItem) : QOp → List TriageItem
  | .add p s newId now => (addItem items p s newId now).2.1
  | .update idv u => (updateItem items idv u).2.1
  | .remove idv => (removeItem items idv).2.1
  | .review idv a tp now => (markReviewed items idv a tp now).2.1
  | .dismiss idv now => (dismissItem items idv now).2.1
  | .clear => (clearProcessed items).2.1

/-- Folding a sequence of queue operations. -/
def applyOps (items : List TriageItem) (ops : List QOp) : List TriageItem :=
  ops.foldl applyOp items

/-! ## Classifier path of `RateLimitedWatcher` (file-watcher.ts)

`triageContent` wraps the classifier call: any exception inside it (context
load, `ollama.generate` — which throws on timeout and on HTTP errors — or
prompt building) is caught and turned into `null`.  `parseTriageResponse`
itself never throws: a JSON parse failure yields an UNCLEAR suggestion with
confidence 0, a schema validation failure yields a salvaged suggestion with
confidence 0.3.  The JSON layer is abstracted into `ParseOutcome`. -/

/-- Failure modes of the guarded block of `triageContent`: the classifier
call throws on timeout (`AbortError` rewritten to an error) and on non-ok
HTTP status; any other exception in the block is `other`. -/
inductive TriageContentError
  | timeout
  | httpError (status : Nat) (msg : String)
  | other (msg : String)
deriving DecidableEq

/-- Outcome of the JSON layer of `parseTriageResponse` on a classifier
response string: the body parsed and validated (`valid`), parsed but failed
Zod validation (`invalid`, carrying the salvageable raw category and title
when present), or `JSON.parse` threw (`unparseable`). -/
inductive ParseOutcome
  | valid (s : TriageSuggestion)
  | invalid (rawCategory : Option TriageCategory) (rawTitle : Option String)
      (msg : String)
  | unparseable (msg : String)
deriving DecidableEq

/-- `parseTriageResponse` from `src/prompts/tolling-triage-prompt.ts`,
after the JSON layer: never null.  On a validated payload the priority is
defaulted to `medium`; on validation failure the salvage branch returns the
raw category when it is a legal one (UNCLEAR otherwise) with confidence
0.3; on an unparseable body the catch branch returns UNCLEAR, title
"Parse Error", confidence 0. -/
def parseTriageResponse : ParseOutcome → TriageSuggestion
  | .valid s => { s with priority := some (s.priority.getD .medium) }
  | .invalid rawCategory rawTitle msg =>
    { category := rawCategory.getD .UNCLEAR
      title := rawTitle.getD "Unknown"
      confidence := (3 : Rat) / 10
      reasoning := some ("Validation failed: " ++ msg) }
  | .unparseable msg =>
    { category := .UNCLEAR
      title := "Parse Error"
      confidence := 0
      reasoning := some ("Failed to parse AI response: " ++ msg) }

/-- `RateLimitedWatcher.triageContent`: the whole body is inside a
try/catch whose catch returns `null`.  `call` is the joint outcome of the
guarded block: an exception, or the response string abstracted to its
parse outcome. -/
def triageContent (call : Except TriageContentError ParseOutcome) :
    Option TriageSuggestion :=
  match call with
  | .error _ => none
  | .ok outcome => some (parseTriageResponse outcome)

/-- Reading a source file may throw. -/
inductive ReadError
  | ioError (msg : String)
deriving DecidableEq

/-- Message text used for the degraded rationale in `triageFile`. -/
def readErrorMessage : ReadError → String
  | .ioError msg => msg

/-- `RateLimitedWatcher.triageFile`: read the file, classify, and add the
suggestion to the triage queue unless it is INFORMATIONAL or the
classification came back `null`; the catch handler (reached only when the
read throws, because `triageContent` swallows its own exceptions) enqueues
a degraded UNCLEAR item.  Returns the new queue collection and the queue
effects performed. -/
def triageFile (items : List TriageItem) (path basename : String)
    (read : Except ReadError String)
    (call : Except TriageContentError ParseOutcome)
    (newId now : String) : List TriageItem × List QueueEffect :=
  match read with
  | .error e =>
    let r := addItem items path
      { category := .UNCLEAR
        title := basename
        confidence := 0
        reasoning := some ("Triage failed: " ++ readErrorMessage e) }
      newId now
    (r.2.1, r.2.2)
  | .ok _content =>
    match triageContent call with
    | none => (items, [])
    | some s =>
      if s.category ≠ .INFORMATIONAL then
        let r := addItem items path s newId now
        (r.2.1, r.2.2)
      else (items, [])

/-! ## Sensitivity filter (`RateLimitedWatcher.isSensitiveFile`) -/

/-- Character-list prefix test. -/
def charsPrefix : List Char → List Char → Bool
  | [], _ => true
  | _ :: _, [] => false
  | a :: as, b :: bs => a == b && charsPrefix as bs

/-- Substring occurrence on character lists (JavaScript
`String.includes`). -/
def charsContains (pat : List Char) : List Char → Bool
  | [] => charsPrefix pat []
  | c :: rest => charsPrefix pat (c :: rest) || charsContains pat rest

/-- JavaScript `haystack.includes(pat)`. -/
def strContains (haystack pat : String) : Bool :=
  charsContains pat.toList haystack.toList

/-- The shortest prefix of `l` ending right before the first occurrence of
`sep`; `none` when `sep` does not occur (the lazy capture of the
front-matter regular expression). -/
def takeUntilSep (sep : List Char) : List Char → Option (List Char)
  | [] => if charsPrefix sep [] then some [] else none
  | c :: rest =>
    if charsPrefix sep (c :: rest) then some []
    else (takeUntilSep sep rest).map (fun l => c :: l)

/-- The front-matter block matched by the anchored regular expression
in `isSensitiveFile`: the content must start with a fenced line, and the
capture runs lazily up to the next closing fence. -/
def frontmatterOf (content : String) : Option String :=
  let cs := content.toList
  if charsPrefix ("---\n".toList) cs then
    (takeUntilSep ("\n---".toList) (cs.drop 4)).map fun l => String.mk l
  else none

/-- `RateLimitedWatcher.isSensitiveFile`, with the asynchronous vault read
made explicit: any exception while reading is caught and reported as
`false` (not sensitive); otherwise the body is scanned for the configured
sensitive patterns and the front matter for the configured skip tags. -/
def isSensitiveFile (read : Except ReadError String)
    (sensitivePatterns skipTaggedFiles : List String) : Bool :=
  match read with
  | .error _ => false
  | .ok content =>
    if sensitivePatterns.any (fun p => strContains content p) then true
    else
      match frontmatterOf content with
      | some fm =>
        skipTaggedFiles.any fun tag =>
          strContains fm "tags:" && strContains fm tag
      | none => false

/-! ## Dispatch queue (`RateLimitedWatcher.processQueue`)

The watcher state carries the FIFO `fileQueue`, the re-entrancy flag
`processing`, the in-flight counter `activeTriages`, and a flag recording
whether a 100 ms retry of `processQueue` is scheduled.  `started` and
`completed` are ghost instrumentation: `started` logs every classification
the drain loop has started, `completed` counts the ones whose completion
handler has run, so `started.length - completed` is the number of
classification calls outstanding at any instant. -/

structure DispatchState where
  fileQueue : List String
  processing : Bool
  activeTriages : Nat
  retryScheduled : Bool
  started : List String
  completed : Nat
deriving DecidableEq

/-- The watcher state at plugin start. -/
def initDispatch : DispatchState :=
  { fileQueue := []
    processing := false
    activeTriages := 0
    retryScheduled := false
    started := []
    completed := 0 }

/-- The while loop of `processQueue`: pop and start units while the queue
is non-empty and the in-flight count is below the maximum.  Returns the
remaining queue, the new counter, and the units started (in start
order). -/
def drainLoop (maxC : Nat) : List String → Nat → List String × Nat × List String
  | [], a => ([], a, [])
  | f :: rest, a =>
    if a < maxC then
      let r := drainLoop maxC rest (a + 1)
      (r.1, r.2.1, f :: r.2.2)
    else (f :: rest, a, [])

/-- `fileQueue.push(...)` from `enqueueFile` / `executeScan`. -/
def pushFile (s : DispatchState) (f : String) : DispatchState :=
  { s with fileQueue := s.fileQueue ++ [f] }

/-- `RateLimitedWatcher.processQueue`: a no-op when a drain is already
running; otherwise run the drain loop and, in the `finally` block,
schedule a 100 ms retry exactly when the queue is still non-empty. -/
def processQueue (maxC : Nat) (s : DispatchState) : DispatchState :=
  if s.processing then s
  else
    let r := drainLoop maxC s.fileQueue s.activeTriages
    { s with
      fileQueue := r.1
      activeTriages := r.2.1
      started := s.started ++ r.2.2
      retryScheduled := !r.1.isEmpty }

/-- The `.finally(() => { this.activeTriages--; })` completion handler
attached to every started classification: it decrements the in-flight
counter and does nothing else.  (`completed` is ghost instrumentation.) -/
def completeTriage (s : DispatchState) : DispatchState :=
  { s with
    activeTriages := s.activeTriages - 1
    completed := s.completed + 1 }

/-- One scheduler step of the dispatch queue: a unit is pushed and a drain
triggered (`enqueueFile`), a scheduled drain runs (`processQueue` from the
retry timer or from `executeScan`), or an outstanding classification
completes and its completion handler runs. -/
inductive DispatchStep (maxC : Nat) : DispatchState → DispatchState → Prop
  | enqueue (f : String) (s : DispatchState) :
      DispatchStep maxC s (processQueue maxC (pushFile s f))
  | push (f : String) (s : DispatchState) :
      DispatchStep maxC s (pushFile s f)
  | drain (s : DispatchState) :
      DispatchStep maxC s (processQueue maxC s)
  | complete (s : DispatchState) :
      s.completed < s.started.length →
      DispatchStep maxC s (completeTriage s)

/-- States reachable from plugin start by scheduler steps. -/
inductive DispatchReachable (maxC : Nat) : DispatchState → Prop
  | init : DispatchReachable maxC initDispatch
  | step {s s2 : DispatchState} :
      DispatchReachable maxC s → DispatchStep maxC s s2 →
      DispatchReachable maxC s2

/-! ## Keyed maps

`debounceTimers` and `teamsBuffer` are JavaScript `Map`s; they are embedded
as association lists so that the at-most-one-entry-per-key property is a
real invariant rather than a typing triviality. -/

/-- `Map.get`. -/
def amapGet {β : Type} : List (String × β) → String → Option β
  | [], _ => none
  | (q, v) :: rest, k => if q = k then some v else amapGet rest k

/-- `Map.set`: replace in place, or append a fresh entry. -/
def amapSet {β : Type} : List (String × β) → String → β → List (String × β)
  | [], k, v => [(k, v)]
  | (q, u) :: rest, k, v =>
    if q = k then (k, v) :: rest else (q, u) :: amapSet rest k v

/-- `Map.delete`. -/
def amapDelete {β : Type} : List (String × β) → String → List (String × β)
  | [], _ => []
  | (q, u) :: rest, k =>
    if q = k then rest else (q, u) :: amapDelete rest k

/-! ## Debouncer (`RateLimitedWatcher.handleFileChange`)

A live timer is an entry `(path, fireTime)`.  Scheduling a new timer for a
path replaces (cancels) the previous one; a timer callback scheduled for
time `t` still runs only if the entry for its path carries exactly the tag
`t` (a cancelled timer never runs).  The settled signal of a fired timer —
the `enqueueFile` call — is logged as `(path, fireTime)`. -/

/-- `RateLimitedWatcher.handleFileChange`: when the watcher is active and
the file is watched, cancel any existing timer for the path and schedule a
fresh one for `now + delay`; otherwise do nothing. -/
def handleFileChange (timers : List (String × Nat))
    (watching watched : Bool) (p : String) (now delay : Nat) :
    List (String × Nat) :=
  if watching && watched then amapSet timers p (now + delay) else timers

/-- The timer callback scheduled for time `t` on path `p`: if it is still
the live timer it removes its entry and emits the settled signal. -/
def fireTimer (timers : List (String × Nat)) (p : String) (t : Nat) :
    List (String × Nat) × List (String × Nat) :=
  match amapGet timers p with
  | some u => if u = t then (amapDelete timers p, [(p, t)]) else (timers, [])
  | none => (timers, [])

/-- Debouncer state: the live timers and the log of settled signals. -/
structure DebounceState where
  timers : List (String × Nat)
  signals : List (String × Nat)
deriving DecidableEq

/-- A timed debouncer action: a change event on a path, or the firing of
the timer callback scheduled for time `t`. -/
inductive DAct
  | ev (p : String) (t : Nat)
  | fire (p : String) (t : Nat)

/-- One debouncer action. -/
def dStep (delay : Nat) (s : DebounceState) : DAct → DebounceState
  | .ev p t => { s with timers := handleFileChange s.timers true true p t delay }
  | .fire p t =>
    let r := fireTimer s.timers p t
    { timers := r.1, signals := s.signals ++ r.2 }

/-- Running a sequence of debouncer actions. -/
def dRun (delay : Nat) (s : DebounceState) (acts : List DAct) : DebounceState :=
  acts.foldl (dStep delay) s

/-! ## Conversation batcher (`bufferTeamsMessage` / `checkTeamsBatch`) -/

/-- `TeamsConversationBuffer` from `src/file-watcher.ts`, with files
identified by path. -/
structure TeamsBuffer where
  files : List String
  lastUpdate : Nat
  conversationId : String
deriving DecidableEq

/-- `RateLimitedWatcher.bufferTeamsMessage` (the buffer bookkeeping):
create the buffer on first contact, append the file, refresh
`lastUpdate`.  The quiet-check it schedules appears as a separate timed
action. -/
def bufferTeamsMessage (buffers : List (String × TeamsBuffer))
    (c f : String) (now : Nat) : List (String × TeamsBuffer) :=
  match amapGet buffers c with
  | none => amapSet buffers c { files := [f], lastUpdate := now, conversationId := c }
  | some b => amapSet buffers c { b with files := b.files ++ [f], lastUpdate := now }

/-- `RateLimitedWatcher.checkTeamsBatch` at time `now` with batch window
`w` (milliseconds): a no-op when the buffer is gone; otherwise dispatch
the full member list and delete the buffer exactly when the quiet period
has passed.  The subtraction is integer subtraction, as in JavaScript. -/
def checkTeamsBatch (buffers : List (String × TeamsBuffer))
    (c : String) (now w : Nat) :
    List (String × TeamsBuffer) × List (List String) :=
  match amapGet buffers c with
  | none => (buffers, [])
  | some b =>
    if (w : Int) ≤ (now : Int) - (b.lastUpdate : Int) then
      (amapDelete buffers c, [b.files])
    else (buffers, [])

/-- A timed batcher action on one conversation: a settled message event,
or the firing of a scheduled quiet-check. -/
inductive TAct
  | app (t : Nat) (f : String)
  | chk (t : Nat)

/-- One batcher action for conversation `c`; dispatched units are logged. -/
def tStep (c : String) (w : Nat)
    (s : List (String × TeamsBuffer) × List (List String)) :
    TAct → List (String × TeamsBuffer) × List (List String)
  | .app t f => (bufferTeamsMessage s.1 c f t, s.2)
  | .chk t =>
    let r := checkTeamsBatch s.1 c t w
    (r.1, s.2 ++ r.2)

/-- Running a sequence of batcher actions. -/
def tRun (c : String) (w : Nat)
    (s : List (String × TeamsBuffer) × List (List String))
    (acts : List TAct) : List (String × TeamsBuffer) × List (List String) :=
  acts.foldl (tStep c w) s

/-! ## Burst timelines

A burst of events with consecutive gaps below the window, merged with the
deferred callbacks each event schedules, yields a time-sorted action list:
blocks of events separated by callback firings.  `bs` lists how many of
the remaining events precede each successive callback.  `SortedBlocks`
says the interleaving respects time order (every event placed after a
callback is no earlier than it); `ValidBlocks` is the combinatorial
consequence (each non-final callback fires only after the event following
the one that scheduled it) used by the run lemmas. -/

/-- Block shapes consistent with a time-sorted merge: `time x` of every
event `x` placed after a callback is at least that callback's fire time,
and all events precede the final callback. -/
def SortedBlocks {α : Type} (time : α → Nat) (w : Nat) :
    List α → List α → List Nat → Prop
  | _, _, [] => False
  | _, rest, [b] => rest.length = b
  | mid, rest, b :: bs =>
    b ≤ rest.length ∧
    (∀ h0 ∈ (mid ++ rest).head?, ∀ x ∈ rest.drop b, time h0 + w ≤ time x) ∧
    SortedBlocks time w ((mid ++ rest.take b).drop 1) (rest.drop b) bs

/-- Valid block shapes: every callback other than the final one fires
while at least two scheduled-or-later events have been consumed, and the
final callback fires after everything with exactly its own event
outstanding. -/
def ValidBlocks {α : Type} : List α → List α → List Nat → Prop
  | _, _, [] => False
  | mid, rest, [b] => mid.length + b = 1 ∧ rest.length = b
  | mid, rest, b :: bs =>
    b ≤ rest.length ∧ 2 ≤ mid.length + b ∧
    ValidBlocks ((mid ++ rest.take b).drop 1) (rest.drop b) bs

/-- In a time-sorted interleaving of a gap-bounded burst, the block shape
is valid: the callback scheduled by one event always fires after the next
event of the burst. -/
theorem validBlocks_of_sorted {α : Type} (time : α → Nat) (w : Nat)
    (hw : 0 < w) :
    ∀ (bs : List Nat) (mid rest : List α),
      SortedBlocks time w mid rest bs →
      List.Chain' (fun x y => time y < time x + w) (mid ++ rest) →
      bs.length = mid.length + rest.length →
      ValidBlocks mid rest bs := by
  intro bs
  induction bs with
  | nil => intro mid rest hs; exact absurd hs (by simp [SortedBlocks])
  | cons b bs ih =>
    intro mid rest hs hchain hlen
    cases bs with
    | nil =>
      simp only [SortedBlocks] at hs
      simp only [List.length_cons, List.length_nil] at hlen
      exact ⟨by omega, hs⟩
    | cons b2 bs2 =>
      simp only [SortedBlocks] at hs
      obtain ⟨hble, hhead, hrec⟩ := hs
      simp only [List.length_cons] at hlen
      have hge2 : 2 ≤ mid.length + b := by
        by_contra hlt
        push_neg at hlt
        have hrest2 : 1 ≤ (rest.drop b).length := by
          simp only [List.length_drop]; omega
        obtain ⟨x, xs, hx⟩ : ∃ x xs, rest.drop b = x :: xs := by
          cases hr : rest.drop b with
          | nil => rw [hr] at hrest2; simp at hrest2
          | cons x xs => exact ⟨x, xs, rfl⟩
        have hxmem : x ∈ rest.drop b := by rw [hx]; exact List.mem_cons_self x xs
        have hall : 1 ≤ mid.length + rest.length := by omega
        have hne : mid ++ rest ≠ [] := by
          intro hc
          have := congrArg List.length hc
          simp only [List.length_append, List.length_nil] at this
          omega
        obtain ⟨h0, t0, hmr⟩ := List.exists_cons_of_ne_nil hne
        have hh0 : h0 ∈ (mid ++ rest).head? := by rw [hmr]; simp
        have hge : time h0 + w ≤ time x := hhead h0 hh0 x hxmem
        -- `x` is the element of `mid ++ rest` at index `mid.length + b ≤ 1`,
        -- so it is `h0` itself or the second element; either way the chain
        -- bound `time x < time h0 + w` contradicts `hge`.
        have hx' : (mid ++ rest).drop (mid.length + b) = x :: xs := by
          have : (mid ++ rest).drop (mid.length + b) = rest.drop b := by
            rw [List.drop_append_eq_append_drop]
            simp [Nat.sub_add_cancel, List.drop_of_length_le, Nat.le_add_right]
          rw [this, hx]
        rcases Nat.lt_or_ge (mid.length + b) 1 with h1 | h1
        · have hz : mid.length + b = 0 := by omega
          rw [hz] at hx'
          simp only [List.drop_zero] at hx'
          rw [hmr] at hx'
          have hxh : x = h0 := by
            injection hx' with hh ht
            exact hh.symm
          rw [hxh] at hge; omega
        · have hz : mid.length + b = 1 := by omega
          rw [hz] at hx'
          rw [hmr] at hx'
          simp only [List.drop_one, List.tail_cons] at hx'
          have hcx : List.Chain' (fun a c => time c < time a + w) (h0 :: x :: xs) := by
            rw [hx'] at hmr
            rw [hmr] at hchain
            exact hchain
          have := (List.chain'_cons.mp hcx).1
          omega
      refine ⟨hble, hge2, ih _ _ hrec ?_ ?_⟩
      · have hOne : 1 ≤ (mid ++ rest.take b).length := by
          simp only [List.length_append, List.length_take]
          omega
        have heq : (mid ++ rest.take b).drop 1 ++ rest.drop b
            = (mid ++ rest).drop 1 := by
          rw [← List.drop_append_of_le_length hOne]
          rw [List.append_assoc, List.take_append_drop]
        rw [heq, List.drop_one]
        exact hchain.tail
      · simp only [List.length_drop, List.length_append, List.length_take,
          List.length_cons] at hlen ⊢
        omega

/-- In a pairwise-related list of length at least two, the head is related
to the last element. -/
theorem pairwise_head_getLast {α : Type} {R : α → α → Prop} :
    ∀ {l : List α}, l.Pairwise R → 2 ≤ l.length →
      ∀ h0 ∈ l.head?, ∀ la ∈ l.getLast?, R h0 la := by
  intro l hp h2 h0 hh la hla
  cases l with
  | nil => simp at hh
  | cons x xs =>
    simp only [List.head?_cons, Option.mem_some_iff] at hh
    subst hh
    cases xs with
    | nil => simp at h2
    | cons y ys =>
      rw [List.getLast?_cons_cons] at hla
      obtain ⟨hne, heq⟩ := List.mem_getLast?_eq_getLast hla
      have hmem : la ∈ y :: ys := heq ▸ List.getLast_mem hne
      exact (List.pairwise_cons.mp hp).1 la hmem

/-- Dropping the head of a list of length at least two keeps the last
element. -/
theorem getLast?_drop_one {α : Type} :
    ∀ {l : List α}, 2 ≤ l.length → (l.drop 1).getLast? = l.getLast? := by
  intro l h2
  cases l with
  | nil => simp at h2
  | cons a xs =>
    cases xs with
    | nil => simp at h2
    | cons b t => simp [List.getLast?_cons_cons]

/-- The single live timer recorded for path `p` after the burst events in
`mid` have been handled: the timer of the latest event, or none before the
first event. -/
def tmOf (p : String) (delay : Nat) (mid : List Nat) : List (String × Nat) :=
  match mid.getLast? with
  | none => []
  | some x => [(p, x + delay)]

/-- The time-sorted action list of a burst on path `p`: blocks of change
events interleaved with the fire times of the scheduled callbacks. -/
def dTimeline (p : String) : List Nat → List Nat → List Nat → List DAct
  | _, _, [] => []
  | _, [], _ :: _ => []
  | rest, f :: fires, b :: bs =>
    (rest.take b).map (fun t => DAct.ev p t) ++
      DAct.fire p f :: dTimeline p (rest.drop b) fires bs

/-- Running is a fold, so it splits over append. -/
theorem dRun_append (delay : Nat) (s : DebounceState) (l1 l2 : List DAct) :
    dRun delay s (l1 ++ l2) = dRun delay (dRun delay s l1) l2 :=
  List.foldl_append _ _ _ _

/-- Handling a block of change events on `p` replaces the live timer with
the timer of the block's last event. -/
theorem dRun_evs (p : String) (delay : Nat) :
    ∀ (l mid : List Nat) (sig : List (String × Nat)),
      dRun delay ⟨tmOf p delay mid, sig⟩ (l.map (fun t => DAct.ev p t)) =
        ⟨tmOf p delay (mid ++ l), sig⟩ := by
  intro l
  induction l with
  | nil => intro mid sig; simp [dRun]
  | cons t tl ih =>
    intro mid sig
    have hstep : dStep delay ⟨tmOf p delay mid, sig⟩ (DAct.ev p t) =
        ⟨tmOf p delay (mid ++ [t]), sig⟩ := by
      have hlast : (mid ++ [t]).getLast? = some t := by simp
      cases hm : mid.getLast? with
      | none => simp [dStep, handleFileChange, tmOf, hm, hlast, amapSet]
      | some x => simp [dStep, handleFileChange, tmOf, hm, hlast, amapSet]
    calc dRun delay ⟨tmOf p delay mid, sig⟩ ((t :: tl).map (fun u => DAct.ev p u))
        = dRun delay ⟨tmOf p delay (mid ++ [t]), sig⟩
            (tl.map (fun u => DAct.ev p u)) := by
          simp only [List.map_cons, dRun, List.foldl_cons, hstep]
      _ = ⟨tmOf p delay ((mid ++ [t]) ++ tl), sig⟩ := ih (mid ++ [t]) sig
      _ = ⟨tmOf p delay (mid ++ t :: tl), sig⟩ := by
          rw [List.append_assoc]; rfl

/-- Core debouncer run lemma: over any valid time-sorted burst timeline,
every callback except the final one is a cancelled no-op, and the final
callback deletes the timer and emits the single settled signal, stamped
`delay` after the burst's last event. -/
theorem dRun_burst (p : String) (delay : Nat) :
    ∀ (bs mid rest : List Nat) (sig : List (String × Nat)) (lastAll : Nat),
      ValidBlocks mid rest bs →
      (mid ++ rest).Chain' (· < ·) →
      (mid ++ rest).getLast? = some lastAll →
      dRun delay ⟨tmOf p delay mid, sig⟩
        (dTimeline p rest ((mid ++ rest).map (fun t => t + delay)) bs) =
        ⟨[], sig ++ [(p, lastAll + delay)]⟩ := by
  intro bs
  induction bs with
  | nil => intro mid rest sig lastAll hv; exact absurd hv (by simp [ValidBlocks])
  | cons b bs ih =>
    intro mid rest sig lastAll hv hchain hlast
    cases bs with
    | nil =>
      simp only [ValidBlocks] at hv
      obtain ⟨h1, hrb⟩ := hv
      rcases mid with _ | ⟨m, mtl⟩
      · -- first event, immediately final: one event then its callback
        simp only [List.length_nil, Nat.zero_add] at h1
        subst h1
        obtain ⟨t, htr⟩ : ∃ t, rest = [t] := by
          cases rest with
          | nil => simp at hrb
          | cons t r2 =>
            cases r2 with
            | nil => exact ⟨t, rfl⟩
            | cons u r3 => simp at hrb
        subst htr
        simp only [List.nil_append, List.getLast?_singleton,
          Option.some_inj] at hlast
        subst hlast
        simp [dTimeline, dRun, dStep, handleFileChange, tmOf, amapSet,
          fireTimer, amapGet, amapDelete]
      · -- the final callback with only its own event outstanding
        have hm0 : mtl = [] ∧ b = 0 := by
          constructor
          · cases mtl with
            | nil => rfl
            | cons u v => simp at h1; omega
          · simp at h1; omega
        obtain ⟨hmtl, hb⟩ := hm0
        subst hmtl; subst hb
        have hr0 : rest = [] := List.length_eq_zero.mp hrb
        subst hr0
        simp only [List.append_nil, List.getLast?_singleton,
          Option.some_inj] at hlast
        subst hlast
        simp [dTimeline, dRun, dStep, tmOf, fireTimer, amapGet, amapDelete]
    | cons b2 bs2 =>
      simp only [ValidBlocks] at hv
      obtain ⟨hble, h2, hrec⟩ := hv
      -- the first block and the cancelled callback it is followed by
      set l1 := mid ++ rest.take b with hl1
      have hl1len : l1.length = mid.length + b := by
        simp [hl1, List.length_take, Nat.min_eq_left hble]
      have hsplit : l1 ++ rest.drop b = mid ++ rest := by
        rw [hl1, List.append_assoc, List.take_append_drop]
      have hfull2 : 2 ≤ (mid ++ rest).length := by
        rw [← hsplit]
        simp only [List.length_append]
        omega
      obtain ⟨h0, t0, hmr⟩ := List.exists_cons_of_ne_nil
        (l := mid ++ rest) (by intro hc; rw [hc] at hfull2; simp at hfull2)
      -- the head of the full burst heads the first block as well
      have hhead1 : l1.head? = some h0 := by
        have hx : (l1 ++ rest.drop b).head? = some h0 := by rw [hsplit, hmr]; simp
        cases hcl : l1 with
        | nil => rw [hcl] at hl1len; simp at hl1len; omega
        | cons a tl =>
          rw [hcl] at hx
          simpa using hx
      obtain ⟨L, hL⟩ : ∃ L, l1.getLast? = some L := by
        cases hcl : l1 with
        | nil => rw [hcl] at hl1len; simp at hl1len; omega
        | cons a tl => exact ⟨(a :: tl).getLast (by simp), List.getLast?_eq_getLast _ _⟩
      have hpair : (mid ++ rest).Pairwise (· < ·) :=
        List.chain'_iff_pairwise.mp hchain
      have hpair1 : l1.Pairwise (· < ·) := by
        rw [← hsplit] at hpair
        exact (List.pairwise_append.mp hpair).1
      have hltL : h0 < L := by
        refine pairwise_head_getLast hpair1 ?_ h0 ?_ L ?_
        · omega
        · rw [hhead1]; rfl
        · rw [hL]; rfl
      -- run the block of events: the live timer becomes that of event L
      have hfires : (mid ++ rest).map (fun t => t + delay) =
          (h0 + delay) :: t0.map (fun t => t + delay) := by
        rw [hmr]; simp
      have htimeline : dTimeline p rest ((mid ++ rest).map (fun t => t + delay))
          (b :: b2 :: bs2) =
          ((rest.take b).map (fun t => DAct.ev p t)) ++
            DAct.fire p (h0 + delay) ::
              dTimeline p (rest.drop b) (t0.map (fun t => t + delay))
                (b2 :: bs2) := by
        rw [hfires]; rfl
      rw [htimeline]
      rw [dRun_append]
      have hblock := dRun_evs p delay (rest.take b) mid sig
      rw [hblock]
      -- the cancelled callback: tag mismatch, state unchanged
      have htm : tmOf p delay l1 = [(p, L + delay)] := by
        simp [tmOf, hL]
      have hfire : dStep delay ⟨tmOf p delay l1, sig⟩ (DAct.fire p (h0 + delay)) =
          ⟨tmOf p delay l1, sig⟩ := by
        rw [htm]
        have hne : ¬ (L + delay = h0 + delay) := by omega
        simp [dStep, fireTimer, amapGet, hne]
      show dRun delay (dStep delay ⟨tmOf p delay l1, sig⟩ (DAct.fire p (h0 + delay)))
          (dTimeline p (rest.drop b) (t0.map (fun t => t + delay)) (b2 :: bs2)) = _
      rw [hfire]
      -- recurse on the remaining timeline
      have hmid2 : (l1.drop 1) ++ rest.drop b = t0 := by
        have : (l1 ++ rest.drop b).drop 1 = t0 := by rw [hsplit, hmr]; simp
        rw [← this]
        exact (List.drop_append_of_le_length (by omega)).symm
      have htm2 : tmOf p delay (l1.drop 1) = tmOf p delay l1 := by
        unfold tmOf
        rw [getLast?_drop_one (l := l1) (by omega)]
      have hchain2 : ((l1.drop 1) ++ rest.drop b).Chain' (· < ·) := by
        rw [hmid2]
        have : (h0 :: t0).Chain' (· < ·) := hmr ▸ hchain
        exact this.tail
      have hlast2 : ((l1.drop 1) ++ rest.drop b).getLast? = some lastAll := by
        rw [hmid2]
        rw [hmr] at hlast
        cases t0 with
        | nil =>
          exfalso
          have := congrArg List.length hmr
          simp at this; omega
        | cons y ys => rw [List.getLast?_cons_cons] at hlast; exact hlast
      have hfires2 : t0.map (fun t => t + delay) =
          ((l1.drop 1) ++ rest.drop b).map (fun t => t + delay) := by
        rw [hmid2]
      rw [← htm2, hfires2]
      exact ih (l1.drop 1) (rest.drop b) sig lastAll hrec hchain2 hlast2

/-- Ordering of buffered events by timestamp is transitive. -/
instance : IsTrans (Nat × String) (fun x y : Nat × String => x.1 < y.1) where
  trans := fun _ _ _ h1 h2 => Nat.lt_trans h1 h2

/-- The buffer map of one conversation after the events in `acc`
(files, in arrival order) have been buffered, the latest at the time of
`mid`'s last element; empty before the first event. -/
def bufOf (c : String) (acc : List String) (mid : List (Nat × String)) :
    List (String × TeamsBuffer) :=
  match mid.getLast? with
  | none => []
  | some e => [(c, { files := acc, lastUpdate := e.1, conversationId := c })]

/-- The time-sorted action list of one conversation's burst: blocks of
settled message events interleaved with the scheduled quiet-checks. -/
def tTimeline : List (Nat × String) → List Nat → List Nat → List TAct
  | _, _, [] => []
  | _, [], _ :: _ => []
  | rest, f :: fires, b :: bs =>
    (rest.take b).map (fun e => TAct.app e.1 e.2) ++
      TAct.chk f :: tTimeline (rest.drop b) fires bs

/-- Running is a fold, so it splits over append. -/
theorem tRun_append (c : String) (w : Nat)
    (s : List (String × TeamsBuffer) × List (List String))
    (l1 l2 : List TAct) :
    tRun c w s (l1 ++ l2) = tRun c w (tRun c w s l1) l2 :=
  List.foldl_append _ _ _ _

/-- Buffering a block of settled events appends their files to the
conversation buffer and refreshes its `lastUpdate` to the block's last
event. -/
theorem tRun_apps (c : String) (w : Nat) :
    ∀ (l : List (Nat × String)) (acc : List String)
      (mid : List (Nat × String)) (disp : List (List String)),
      (mid = [] → acc = []) →
      tRun c w (bufOf c acc mid, disp) (l.map (fun e => TAct.app e.1 e.2)) =
        (bufOf c (acc ++ l.map Prod.snd) (mid ++ l), disp) := by
  intro l
  induction l with
  | nil => intro acc mid disp h; simp [tRun]
  | cons e tl ih =>
    intro acc mid disp h
    have hstep : tStep c w (bufOf c acc mid, disp) (TAct.app e.1 e.2) =
        (bufOf c (acc ++ [e.2]) (mid ++ [e]), disp) := by
      have hlast : (mid ++ [e]).getLast? = some e := by simp
      cases hm : mid.getLast? with
      | none =>
        have hacc : acc = [] := by
          apply h
          cases mid with
          | nil => rfl
          | cons x xs => simp [List.getLast?_concat] at hm
        subst hacc
        simp [tStep, bufferTeamsMessage, bufOf, hm, hlast, amapGet, amapSet]
      | some x =>
        simp [tStep, bufferTeamsMessage, bufOf, hm, hlast, amapGet, amapSet]
    calc tRun c w (bufOf c acc mid, disp) ((e :: tl).map (fun u => TAct.app u.1 u.2))
        = tRun c w (bufOf c (acc ++ [e.2]) (mid ++ [e]), disp)
            (tl.map (fun u => TAct.app u.1 u.2)) := by
          simp only [List.map_cons, tRun, List.foldl_cons, hstep]
      _ = (bufOf c ((acc ++ [e.2]) ++ tl.map Prod.snd) ((mid ++ [e]) ++ tl), disp) := by
          exact ih (acc ++ [e.2]) (mid ++ [e]) disp (by simp)
      _ = (bufOf c (acc ++ (e :: tl).map Prod.snd) (mid ++ e :: tl), disp) := by
          rw [List.append_assoc, List.append_assoc]; rfl

/-- Core batcher run lemma: over any valid time-sorted burst timeline of a
conversation, every quiet-check except the final one observes a refreshed
buffer and does nothing, and the final quiet-check dispatches the full
accumulated member list once and deletes the buffer. -/
theorem tRun_burst (c : String) (w : Nat) :
    ∀ (bs : List Nat) (mid rest : List (Nat × String)) (acc : List String)
      (disp : List (List String)),
      ValidBlocks mid rest bs →
      (mid ++ rest).Chain' (fun x y : Nat × String => x.1 < y.1) →
      (mid = [] → acc = []) →
      tRun c w (bufOf c acc mid, disp)
        (tTimeline rest ((mid ++ rest).map (fun e => e.1 + w)) bs) =
        ([], disp ++ [acc ++ rest.map Prod.snd]) := by
  intro bs
  induction bs with
  | nil => intro mid rest acc disp hv; exact absurd hv (by simp [ValidBlocks])
  | cons b bs ih =>
    intro mid rest acc disp hv hchain hacc
    cases bs with
    | nil =>
      simp only [ValidBlocks] at hv
      obtain ⟨h1, hrb⟩ := hv
      rcases mid with _ | ⟨m, mtl⟩
      · simp only [List.length_nil, Nat.zero_add] at h1
        subst h1
        obtain ⟨e, htr⟩ : ∃ e, rest = [e] := by
          cases rest with
          | nil => simp at hrb
          | cons e r2 =>
            cases r2 with
            | nil => exact ⟨e, rfl⟩
            | cons u r3 => simp at hrb
        subst htr
        have hacc0 : acc = [] := hacc rfl
        subst hacc0
        have hquiet : (w : Int) ≤ ((e.1 + w : Nat) : Int) - (e.1 : Int) := by
          push_cast; omega
        simp [tTimeline, tRun, tStep, bufferTeamsMessage, bufOf, amapGet,
          amapSet, amapDelete, checkTeamsBatch, hquiet]
      · have hm0 : mtl = [] ∧ b = 0 := by
          constructor
          · cases mtl with
            | nil => rfl
            | cons u v => simp at h1; omega
          · simp at h1; omega
        obtain ⟨hmtl, hb⟩ := hm0
        subst hmtl; subst hb
        have hr0 : rest = [] := List.length_eq_zero.mp hrb
        subst hr0
        have hquiet : (w : Int) ≤ ((m.1 + w : Nat) : Int) - (m.1 : Int) := by
          push_cast; omega
        simp [tTimeline, tRun, tStep, bufOf, amapGet, amapDelete,
          checkTeamsBatch, hquiet]
    | cons b2 bs2 =>
      simp only [ValidBlocks] at hv
      obtain ⟨hble, h2, hrec⟩ := hv
      set l1 := mid ++ rest.take b with hl1
      have hl1len : l1.length = mid.length + b := by
        simp [hl1, List.length_take, Nat.min_eq_left hble]
      have hsplit : l1 ++ rest.drop b = mid ++ rest := by
        rw [hl1, List.append_assoc, List.take_append_drop]
      have hfull2 : 2 ≤ (mid ++ rest).length := by
        rw [← hsplit]
        simp only [List.length_append]
        omega
      obtain ⟨h0, t0, hmr⟩ := List.exists_cons_of_ne_nil
        (l := mid ++ rest) (by intro hc; rw [hc] at hfull2; simp at hfull2)
      have hhead1 : l1.head? = some h0 := by
        have hx : (l1 ++ rest.drop b).head? = some h0 := by rw [hsplit, hmr]; simp
        cases hcl : l1 with
        | nil => rw [hcl] at hl1len; simp at hl1len; omega
        | cons a tl =>
          rw [hcl] at hx
          simpa using hx
      obtain ⟨L, hL⟩ : ∃ L, l1.getLast? = some L := by
        cases hcl : l1 with
        | nil => rw [hcl] at hl1len; simp at hl1len; omega
        | cons a tl => exact ⟨(a :: tl).getLast (by simp), List.getLast?_eq_getLast _ _⟩
      have hpair : (mid ++ rest).Pairwise (fun x y : Nat × String => x.1 < y.1) :=
        List.chain'_iff_pairwise.mp hchain
      have hpair1 : l1.Pairwise (fun x y : Nat × String => x.1 < y.1) := by
        rw [← hsplit] at hpair
        exact (List.pairwise_append.mp hpair).1
      have hltL : h0.1 < L.1 := by
        refine pairwise_head_getLast hpair1 ?_ h0 ?_ L ?_
        · omega
        · rw [hhead1]; rfl
        · rw [hL]; rfl
      have hfires : (mid ++ rest).map (fun e => e.1 + w) =
          (h0.1 + w) :: t0.map (fun e => e.1 + w) := by
        rw [hmr]; simp
      have htimeline : tTimeline rest ((mid ++ rest).map (fun e => e.1 + w))
          (b :: b2 :: bs2) =
          ((rest.take b).map (fun e => TAct.app e.1 e.2)) ++
            TAct.chk (h0.1 + w) ::
              tTimeline (rest.drop b) (t0.map (fun e => e.1 + w))
                (b2 :: bs2) := by
        rw [hfires]; rfl
      rw [htimeline, tRun_append]
      rw [tRun_apps c w (rest.take b) acc mid disp hacc]
      set acc2 := acc ++ (rest.take b).map Prod.snd with hacc2
      have hbuf : bufOf c acc2 l1 =
          [(c, { files := acc2, lastUpdate := L.1, conversationId := c })] := by
        simp [bufOf, hL]
      have hchk : tStep c w (bufOf c acc2 l1, disp) (TAct.chk (h0.1 + w)) =
          (bufOf c acc2 l1, disp) := by
        rw [hbuf]
        have hnq : ¬ ((w : Int) ≤ (h0.1 : Int) + (w : Int) - (L.1 : Int)) := by
          omega
        simp [tStep, checkTeamsBatch, amapGet, hnq]
      show tRun c w (tStep c w (bufOf c acc2 l1, disp) (TAct.chk (h0.1 + w)))
          (tTimeline (rest.drop b) (t0.map (fun e => e.1 + w)) (b2 :: bs2)) = _
      rw [hchk]
      have hmid2 : (l1.drop 1) ++ rest.drop b = t0 := by
        have hx : (l1 ++ rest.drop b).drop 1 = t0 := by rw [hsplit, hmr]; simp
        rw [← hx]
        exact (List.drop_append_of_le_length (by omega)).symm
      have hbuf2 : bufOf c acc2 (l1.drop 1) = bufOf c acc2 l1 := by
        unfold bufOf
        rw [getLast?_drop_one (l := l1) (by omega)]
      have hchain2 : ((l1.drop 1) ++ rest.drop b).Chain'
          (fun x y : Nat × String => x.1 < y.1) := by
        rw [hmid2]
        have hx : (h0 :: t0).Chain' (fun x y : Nat × String => x.1 < y.1) :=
          hmr ▸ hchain
        exact hx.tail
      have hfires2 : t0.map (fun e => e.1 + w) =
          ((l1.drop 1) ++ rest.drop b).map (fun e => e.1 + w) := by
        rw [hmid2]
      have hne2 : l1.drop 1 ≠ [] := by
        intro hc
        have := congrArg List.length hc
        simp only [List.length_drop, List.length_nil] at this
        omega
      rw [← hbuf2, hfires2]
      rw [ih (l1.drop 1) (rest.drop b) acc2 disp hrec hchain2 (fun hc => absurd hc hne2)]
      rw [hacc2]
      rw [List.append_assoc, ← List.map_append, List.take_append_drop]

/-! ## Key uniqueness of the timer map -/

/-- Keys after a `Map.set` come from the inserted key or the old keys. -/
theorem amapSet_keys {β : Type} :
    ∀ (m : List (String × β)) (k : String) (v : β) (x : String),
      x ∈ (amapSet m k v).map Prod.fst → x = k ∨ x ∈ m.map Prod.fst := by
  intro m k v
  induction m with
  | nil => intro x hx; simp [amapSet] at hx; exact Or.inl hx
  | cons e rest ih =>
    intro x hx
    obtain ⟨q, u⟩ := e
    by_cases hq : q = k
    · simp [amapSet, hq] at hx
      rcases hx with hx | hx
      · exact Or.inl hx
      · exact Or.inr (by simp; exact Or.inr (by simpa using hx))
    · simp [amapSet, hq] at hx
      rcases hx with hx | hx
      · exact Or.inr (by simp [hx])
      · rcases ih x (by simpa using hx) with h | h
        · exact Or.inl h
        · exact Or.inr (by simp; exact Or.inr (by simpa using h))

/-- `Map.set` keeps the keys free of duplicates. -/
theorem amapSet_nodup {β : Type} :
    ∀ (m : List (String × β)) (k : String) (v : β),
      (m.map Prod.fst).Nodup → ((amapSet m k v).map Prod.fst).Nodup := by
  intro m k v
  induction m with
  | nil => intro _; simp [amapSet]
  | cons e rest ih =>
    intro hnd
    obtain ⟨q, u⟩ := e
    simp only [List.map_cons, List.nodup_cons] at hnd
    obtain ⟨hq, hrest⟩ := hnd
    by_cases hqk : q = k
    · subst hqk
      simp only [amapSet, if_true]
      simp only [List.map_cons, List.nodup_cons]
      exact ⟨hq, hrest⟩
    · simp only [amapSet, if_neg hqk, List.map_cons, List.nodup_cons]
      refine ⟨?_, ih hrest⟩
      intro hmem
      rcases amapSet_keys rest k v q hmem with h | h
      · exact hqk h
      · exact hq h

/-- `Map.delete` removes entries, so its result is a sublist. -/
theorem amapDelete_sublist {β : Type} :
    ∀ (m : List (String × β)) (k : String), (amapDelete m k).Sublist m := by
  intro m k
  induction m with
  | nil => simp [amapDelete]
  | cons e rest ih =>
    obtain ⟨q, u⟩ := e
    by_cases hq : q = k
    · simp only [amapDelete, if_pos hq]
      exact (List.sublist_cons_self _ _)
    · simp only [amapDelete, if_neg hq]
      exact ih.cons₂ _

/-- `Map.delete` keeps the keys free of duplicates. -/
theorem amapDelete_nodup {β : Type} (m : List (String × β)) (k : String)
    (hnd : (m.map Prod.fst).Nodup) :
    ((amapDelete m k).map Prod.fst).Nodup :=
  List.Nodup.sublist (List.Sublist.map Prod.fst (amapDelete_sublist m k)) hnd

/-- One debouncer action keeps the timer keys free of duplicates. -/
theorem dStep_nodup (delay : Nat) (s : DebounceState) (a : DAct)
    (hnd : (s.timers.map Prod.fst).Nodup) :
    ((dStep delay s a).timers.map Prod.fst).Nodup := by
  cases a with
  | ev p t =>
    simp only [dStep, handleFileChange]
    split
    · exact amapSet_nodup _ _ _ hnd
    · exact hnd
  | fire p t =>
    simp only [dStep, fireTimer]
    cases hg : amapGet s.timers p with
    | none => exact hnd
    | some u =>
      by_cases he : u = t
      · simp only [if_pos he]
        exact amapDelete_nodup _ _ hnd
      · simp only [if_neg he]
        exact hnd

/-- Any run of debouncer actions keeps the timer keys free of
duplicates. -/
theorem dRun_nodup (delay : Nat) :
    ∀ (acts : List DAct) (s : DebounceState),
      (s.timers.map Prod.fst).Nodup →
      (((dRun delay s acts).timers).map Prod.fst).Nodup := by
  intro acts
  induction acts with
  | nil => intro s h; exact h
  | cons a tl ih =>
    intro s h
    exact ih (dStep delay s a) (dStep_nodup delay s a h)

/-! ## Dispatch-queue invariants -/

/-- The drain loop increments the counter once per started unit. -/
theorem drainLoop_active (maxC : Nat) :
    ∀ (q : List String) (a : Nat),
      (drainLoop maxC q a).2.1 = a + (drainLoop maxC q a).2.2.length := by
  intro q
  induction q with
  | nil => intro a; simp [drainLoop]
  | cons f rest ih =>
    intro a
    by_cases hlt : a < maxC
    · simp only [drainLoop, if_pos hlt]
      have := ih (a + 1)
      simp only [List.length_cons]
      omega
    · simp [drainLoop, if_neg hlt]

/-- The drain loop never pushes the counter beyond the maximum. -/
theorem drainLoop_le (maxC : Nat) :
    ∀ (q : List String) (a : Nat), a ≤ maxC →
      (drainLoop maxC q a).2.1 ≤ maxC := by
  intro q
  induction q with
  | nil => intro a h; simpa [drainLoop] using h
  | cons f rest ih =>
    intro a h
    by_cases hlt : a < maxC
    · simp only [drainLoop, if_pos hlt]
      exact ih (a + 1) hlt
    · simpa [drainLoop, if_neg hlt] using h

/-- The dispatch-queue safety invariant: the in-flight counter tracks the
outstanding classifications (ghost-started minus ghost-completed) and
never exceeds the configured maximum. -/
def DispatchInv (maxC : Nat) (s : DispatchState) : Prop :=
  s.activeTriages ≤ maxC ∧ s.completed ≤ s.started.length ∧
    s.activeTriages = s.started.length - s.completed

/-- Every scheduler step preserves the dispatch-queue invariant. -/
theorem dispatchStep_inv {maxC : Nat} {s s2 : DispatchState}
    (hstep : DispatchStep maxC s s2) (hinv : DispatchInv maxC s) :
    DispatchInv maxC s2 := by
  obtain ⟨h1, h2, h3⟩ := hinv
  cases hstep with
  | push f s =>
    exact ⟨h1, h2, h3⟩
  | enqueue f s =>
    unfold processQueue pushFile
    by_cases hp : s.processing
    · simp only [if_pos hp]
      exact ⟨h1, h2, h3⟩
    · simp only [if_neg hp]
      refine ⟨drainLoop_le maxC _ _ h1, ?_, ?_⟩
      · simp only [List.length_append]
        omega
      · have := drainLoop_active maxC (s.fileQueue ++ [f]) s.activeTriages
        simp only [List.length_append]
        omega
  | drain s =>
    unfold processQueue
    by_cases hp : s.processing
    · simp only [if_pos hp]
      exact ⟨h1, h2, h3⟩
    · simp only [if_neg hp]
      refine ⟨drainLoop_le maxC _ _ h1, ?_, ?_⟩
      · simp only [List.length_append]
        omega
      · have := drainLoop_active maxC s.fileQueue s.activeTriages
        simp only [List.length_append]
        omega
  | complete s hout =>
    refine ⟨?_, ?_, ?_⟩ <;> simp only [completeTriage] <;> omega

/-- The dispatch-queue invariant holds in every reachable state. -/
theorem dispatch_inv_reachable {maxC : Nat} {s : DispatchState}
    (h : DispatchReachable maxC s) : DispatchInv maxC s := by
  induction h with
  | init => exact ⟨by simp [initDispatch], by simp [initDispatch], by simp [initDispatch]⟩
  | step hr hstep ih => exact dispatchStep_inv hstep ih

/-! ## Status monotonicity machinery -/

/-- No item carrying the tracked id is pending. -/
def NoRevert (i : String) (items : List TriageItem) : Prop :=
  ∀ it ∈ items, it.id = i → it.status ≠ TriageItemStatus.pending

/-- Queue operations that do not forge the tracked item: an added item
carries a fresh id (as `generateId` guarantees), and a raw update never
sets the status field to `pending`.  `markReviewed`, `dismissItem`,
`removeItem` and `clearProcessed` are unrestricted. -/
def OkOp (i : String) : QOp → Prop
  | .add _ _ newId _ => newId ≠ i
  | .update _ u => u.status ≠ some TriageItemStatus.pending
  | _ => True

/-- The merge keeps a non-pending status non-pending unless the update
explicitly provides `pending`. -/
theorem mergeItem_status (e : TriageItem) (u : TriageItemUpdate)
    (he : e.status ≠ TriageItemStatus.pending)
    (hu : u.status ≠ some TriageItemStatus.pending) :
    (mergeItem e u).status ≠ TriageItemStatus.pending := by
  unfold mergeItem
  cases hs : u.status with
  | none => simpa [Option.getD] using he
  | some v =>
    simp only [Option.getD]
    intro hv
    rw [hs] at hu
    exact hu (by rw [hv])

/-- Members of the list produced by `updateItemGo` are old members or the
merge of the matched item. -/
theorem updateItemGo_mem (idv : String) (u : TriageItemUpdate) :
    ∀ (items : List TriageItem) (r : TriageItem) (items2 : List TriageItem),
      updateItemGo idv u items = some (r, items2) →
      ∀ it ∈ items2,
        it ∈ items ∨ ∃ e ∈ items, e.id = idv ∧ it = mergeItem e u := by
  intro items
  induction items with
  | nil => intro r items2 h; simp [updateItemGo] at h
  | cons hd tl ih =>
    intro r items2 h it hit
    by_cases hid : hd.id = idv
    · simp only [updateItemGo, if_pos hid] at h
      obtain ⟨-, h2⟩ := Prod.mk.injEq .. ▸ (Option.some_inj.mp h)
      rw [← h2] at hit
      rcases List.mem_cons.mp hit with hx | hx
      · exact Or.inr ⟨hd, by simp, hid, hx⟩
      · exact Or.inl (List.mem_cons_of_mem _ hx)
    · simp only [updateItemGo, if_neg hid] at h
      cases hgo : updateItemGo idv u tl with
      | none => rw [hgo] at h; simp at h
      | some pr =>
        obtain ⟨r2, tl2⟩ := pr
        rw [hgo] at h
        simp only [Option.some_inj] at h
        obtain ⟨-, h2⟩ := Prod.mk.injEq .. ▸ h
        rw [← h2] at hit
        rcases List.mem_cons.mp hit with hx | hx
        · exact Or.inl (by simp [hx])
        · rcases ih r2 tl2 (by rw [hgo]) it hx with hy | ⟨e, he, he2, he3⟩
          · exact Or.inl (List.mem_cons_of_mem _ hy)
          · exact Or.inr ⟨e, List.mem_cons_of_mem _ he, he2, he3⟩

/-- `updateItemGo` returns the merge of some matched stored item. -/
theorem updateItemGo_result (idv : String) (u : TriageItemUpdate) :
    ∀ (items : List TriageItem) (r : TriageItem) (items2 : List TriageItem),
      updateItemGo idv u items = some (r, items2) →
      ∃ e ∈ items, e.id = idv ∧ r = mergeItem e u := by
  intro items
  induction items with
  | nil => intro r items2 h; simp [updateItemGo] at h
  | cons hd tl ih =>
    intro r items2 h
    by_cases hid : hd.id = idv
    · simp only [updateItemGo, if_pos hid] at h
      obtain ⟨h1, -⟩ := Prod.mk.injEq .. ▸ (Option.some_inj.mp h)
      exact ⟨hd, by simp, hid, h1.symm⟩
    · simp only [updateItemGo, if_neg hid] at h
      cases hgo : updateItemGo idv u tl with
      | none => rw [hgo] at h; simp at h
      | some pr =>
        obtain ⟨r2, tl2⟩ := pr
        rw [hgo] at h
        simp only [Option.some_inj] at h
        obtain ⟨h1, -⟩ := Prod.mk.injEq .. ▸ h
        obtain ⟨e, he, he2, he3⟩ := ih r2 tl2 (by rw [hgo])
        exact ⟨e, List.mem_cons_of_mem _ he, he2, by rw [← h1, he3]⟩

/-- Members after a removal were members before. -/
theorem removeItemGo_mem (idv : String) :
    ∀ (items items2 : List TriageItem),
      removeItemGo idv items = some items2 →
      ∀ it ∈ items2, it ∈ items := by
  intro items
  induction items with
  | nil => intro items2 h; simp [removeItemGo] at h
  | cons hd tl ih =>
    intro items2 h it hit
    by_cases hid : hd.id = idv
    · simp only [removeItemGo, if_pos hid, Option.some_inj] at h
      rw [← h] at hit
      exact List.mem_cons_of_mem _ hit
    · simp only [removeItemGo, if_neg hid] at h
      cases hgo : removeItemGo idv tl with
      | none => rw [hgo] at h; simp at h
      | some tl2 =>
        rw [hgo] at h
        simp at h
        rw [← h] at hit
        rcases List.mem_cons.mp hit with hx | hx
        · simp [hx]
        · exact List.mem_cons_of_mem _ (ih tl2 hgo it hx)

/-- One permitted queue operation preserves the no-revert property of the
tracked id. -/
theorem noRevert_applyOp {i : String} {items : List TriageItem} {op : QOp}
    (hnp : NoRevert i items) (hok : OkOp i op) :
    NoRevert i (applyOp items op) := by
  cases op with
  | add p s newId now =>
    intro it hit hid
    simp only [applyOp, addItem] at hit
    rcases List.mem_append.mp hit with hx | hx
    · exact hnp it hx hid
    · simp only [List.mem_singleton] at hx
      rw [hx] at hid
      exact absurd hid hok
  | update idv u =>
    intro it hit hid
    simp only [applyOp, updateItem] at hit
    cases hgo : updateItemGo idv u items with
    | none => rw [hgo] at hit; exact hnp it hit hid
    | some pr =>
      obtain ⟨r, items2⟩ := pr
      rw [hgo] at hit
      have hit2 : it ∈ items2 := hit
      rcases updateItemGo_mem idv u items r items2 hgo it hit2 with hx | ⟨e, he, he2, he3⟩
      · exact hnp it hx hid
      · rw [he3]
        have heid : e.id = i := by rw [he3] at hid; exact hid
        exact mergeItem_status e u (hnp e he heid) hok
  | remove idv =>
    intro it hit hid
    simp only [applyOp, removeItem] at hit
    cases hgo : removeItemGo idv items with
    | none => rw [hgo] at hit; exact hnp it hit hid
    | some items2 =>
      rw [hgo] at hit
      have hit2 : it ∈ items2 := hit
      exact hnp it (removeItemGo_mem idv items items2 hgo it hit2) hid
  | review idv a tp now =>
    intro it hit hid
    simp only [applyOp, markReviewed, updateItem] at hit
    cases hgo : updateItemGo idv
        { status := some TriageItemStatus.reviewed
          actionTaken := some a
          actionTime := some now
          createdTaskPath := tp } items with
    | none => rw [hgo] at hit; exact hnp it hit hid
    | some pr =>
      obtain ⟨r, items2⟩ := pr
      rw [hgo] at hit
      have hit2 : it ∈ items2 := hit
      rcases updateItemGo_mem _ _ items r items2 hgo it hit2 with hx | ⟨e, he, he2, he3⟩
      · exact hnp it hx hid
      · rw [he3]
        have heid : e.id = i := by rw [he3] at hid; exact hid
        exact mergeItem_status e _ (hnp e he heid) (by simp)
  | dismiss idv now =>
    intro it hit hid
    simp only [applyOp, dismissItem, updateItem] at hit
    cases hgo : updateItemGo idv
        { status := some TriageItemStatus.dismissed
          actionTaken := some "dismissed"
          actionTime := some now } items with
    | none => rw [hgo] at hit; exact hnp it hit hid
    | some pr =>
      obtain ⟨r, items2⟩ := pr
      rw [hgo] at hit
      have hit2 : it ∈ items2 := hit
      rcases updateItemGo_mem _ _ items r items2 hgo it hit2 with hx | ⟨e, he, he2, he3⟩
      · exact hnp it hx hid
      · rw [he3]
        have heid : e.id = i := by rw [he3] at hid; exact hid
        exact mergeItem_status e _ (hnp e he heid) (by simp)
  | clear =>
    intro it hit hid
    simp only [applyOp, clearProcessed] at hit
    split at hit
    · exact hnp it (List.mem_of_mem_filter hit) hid
    · exact hnp it (List.mem_of_mem_filter hit) hid

/-- A whole permitted operation sequence preserves the no-revert
property. -/
theorem noRevert_applyOps {i : String} :
    ∀ (ops : List QOp) (items : List TriageItem),
      NoRevert i items → (∀ op ∈ ops, OkOp i op) →
      NoRevert i (applyOps items ops) := by
  intro ops
  induction ops with
  | nil => intro items h _; exact h
  | cons op tl ih =>
    intro items h hall
    have h1 : NoRevert i (applyOp items op) :=
      noRevert_applyOp h (hall op (by simp))
    have h2 : ∀ o ∈ tl, OkOp i o := fun o ho => hall o (List.mem_cons_of_mem _ ho)
    exact ih (applyOp items op) h1 h2

/-- A successful `updateItem` returns the merge of a matched stored
item. -/
theorem updateItem_result (items : List TriageItem) (idv : String)
    (u : TriageItemUpdate) (r : TriageItem) (l : List TriageItem)
    (effs : List QueueEffect)
    (h : updateItem items idv u = (some r, l, effs)) :
    ∃ e ∈ items, e.id = idv ∧ r = mergeItem e u := by
  unfold updateItem at h
  cases hgo : updateItemGo idv u items with
  | none => rw [hgo] at h; exact absurd h (by simp)
  | some pr =>
    obtain ⟨r0, l0⟩ := pr
    rw [hgo] at h
    have hr : r0 = r := by
      have := congrArg Prod.fst h
      simpa using this
    obtain ⟨e, he, heid, hm⟩ := updateItemGo_result idv u items r0 l0 (by rw [hgo])
    exact ⟨e, he, heid, hr ▸ hm⟩

/-- `findIndex` semantics: the first item matching the id is rewritten and
everything else is kept in place. -/
theorem updateItemGo_first (idv : String) (u : TriageItemUpdate)
    (e : TriageItem) (post : List TriageItem) (he : e.id = idv) :
    ∀ (pre : List TriageItem), (∀ it ∈ pre, it.id ≠ idv) →
      updateItemGo idv u (pre ++ e :: post) =
        some (mergeItem e u, pre ++ mergeItem e u :: post) := by
  intro pre
  induction pre with
  | nil => intro _; simp [updateItemGo, he]
  | cons hd tl ih =>
    intro h
    have hhd : hd.id ≠ idv := h hd (by simp)
    simp only [List.cons_append, updateItemGo, if_neg hhd, List.append_eq]
    rw [ih (fun it hit => h it (List.mem_cons_of_mem _ hit))]

/-- `findIndex` finds nothing when no id matches. -/
theorem updateItemGo_none (idv : String) (u : TriageItemUpdate) :
    ∀ (items : List TriageItem), (∀ it ∈ items, it.id ≠ idv) →
      updateItemGo idv u items = none := by
  intro items
  induction items with
  | nil => intro _; rfl
  | cons hd tl ih =>
    intro h
    have hhd : hd.id ≠ idv := h hd (by simp)
    simp only [updateItemGo, if_neg hhd]
    rw [ih (fun it hit => h it (List.mem_cons_of_mem _ hit))]

/-- Removal finds nothing when no id matches. -/
theorem removeItemGo_none (idv : String) :
    ∀ (items : List TriageItem), (∀ it ∈ items, it.id ≠ idv) →
      removeItemGo idv items = none := by
  intro items
  induction items with
  | nil => intro _; rfl
  | cons hd tl ih =>
    intro h
    have hhd : hd.id ≠ idv := h hd (by simp)
    simp only [removeItemGo, if_neg hhd]
    rw [ih (fun it hit => h it (List.mem_cons_of_mem _ hit))]
    rfl

/-! ## Claims -/

/-- C1: the claim states that every classifier failure (timeout or
malformed response) still yields an UNCLEAR/confidence-0 triage item for
the file.  Evaluating the embedded pipeline shows the divergence: a
classifier timeout makes `triageContent` swallow the exception and return
`null`, whereupon `triageFile` adds nothing — the source is silently
dropped (first conjunct), even though the dedicated catch branch exists
and an unparseable response body does produce the promised
UNCLEAR/confidence-0 pending item (second conjunct). -/
theorem C1_classifier_failure_eval :
    triageFile [] "Emails/a.md" "a" (Except.ok "body")
        (Except.error TriageContentError.timeout) "id1" "t1" = ([], []) ∧
    (let r := triageFile [] "Emails/a.md" "a" (Except.ok "body")
        (Except.ok (ParseOutcome.unparseable "Unexpected token")) "id1" "t1"
     (r.1.map fun it => (it.suggestion.category, it.suggestion.confidence, it.status)) =
        [(TriageCategory.UNCLEAR, (0 : Rat), TriageItemStatus.pending)] ∧
     r.2 = [QueueEffect.save, QueueEffect.notify]) := by
  exact ⟨rfl, rfl, rfl⟩

/-- C2 (counterexample): with a pending item for `"Emails/a.md"` already
stored — so the membership query reports it — `addItem` for the same path
does not fail fast: it creates a second item and both are pending. -/
theorem C2_addItem_counterexample :
    let existing : TriageItem :=
      { id := "id0", filePath := "Emails/a.md", fileName := "a.md",
        triageTime := "t0",
        suggestion := { category := TriageCategory.CLIENT_CORRESPONDENCE,
                        title := "m", confidence := 9 / 10 },
        status := TriageItemStatus.pending }
    let r := addItem [existing] "Emails/a.md"
      { category := TriageCategory.CLIENT_CORRESPONDENCE, title := "m2",
        confidence := 8 / 10 } "id1" "t1"
    hasFilePath [existing] "Emails/a.md" = true ∧
    r.2.1.length = 2 ∧
    (r.2.1.filter fun it =>
        it.filePath == "Emails/a.md" &&
        it.status == TriageItemStatus.pending).length = 2 := by
  exact ⟨rfl, rfl, rfl⟩

/-- C2 (amended): `addItem` performs no duplicate check at all — it
unconditionally creates a fresh item with status `pending` for the given
path, appends it, persists, and notifies; duplicate suppression is the
caller's job through the pending-membership query `hasFilePath`, whose
characterization is the final conjunct. -/
theorem C2_addItem_amended (items : List TriageItem) (path : String)
    (s : TriageSuggestion) (newId now : String) (p : String) :
    (addItem items path s newId now).2.1 =
        items ++ [mkTriageItem path s newId now] ∧
    (addItem items path s newId now).1 = mkTriageItem path s newId now ∧
    (mkTriageItem path s newId now).status = TriageItemStatus.pending ∧
    (mkTriageItem path s newId now).filePath = path ∧
    (addItem items path s newId now).2.2 = [QueueEffect.save, QueueEffect.notify] ∧
    (hasFilePath items p = true ↔
      ∃ it ∈ items, it.filePath = p ∧ it.status = TriageItemStatus.pending) := by
  refine ⟨rfl, rfl, rfl, rfl, rfl, ?_⟩
  simp [hasFilePath, List.any_eq_true, Bool.and_eq_true, beq_iff_eq]

/-- C3 (counterexample): the claim says no sequence of operations —
including `updateItem` with an arbitrary partial update — ever returns a
reviewed or dismissed item to `pending`.  But `updateItem` merges any
provided `status` field verbatim: updating a reviewed item with
`{status: pending}` reverts it. -/
theorem C3_status_counterexample :
    let reviewedItem : TriageItem :=
      { id := "i1", filePath := "p", fileName := "p", triageTime := "t0",
        suggestion := { category := TriageCategory.UNCLEAR, title := "x",
                        confidence := 0 },
        status := TriageItemStatus.reviewed }
    reviewedItem.status = TriageItemStatus.reviewed ∧
    ((updateItem [reviewedItem] "i1"
        { status := some TriageItemStatus.pending }).2.1.map
      fun it => it.status) = [TriageItemStatus.pending] := by
  exact ⟨rfl, rfl⟩

/-- C3 (amended): status transitions are monotonic for every operation
sequence that does not explicitly write `pending` through a raw
`updateItem` (and whose added items carry fresh ids, as `generateId`
guarantees): an item observed non-pending never returns to pending, and
`markReviewed` / `dismissItem` always produce `reviewed` / `dismissed`. -/
theorem C3_status_monotonic_amended :
    (∀ (i : String) (items : List TriageItem) (ops : List QOp),
        NoRevert i items → (∀ op ∈ ops, OkOp i op) →
        NoRevert i (applyOps items ops)) ∧
    (∀ (items : List TriageItem) (idv now : String) (r : TriageItem)
        (l : List TriageItem) (effs : List QueueEffect),
        dismissItem items idv now = (some r, l, effs) →
        r.status = TriageItemStatus.dismissed) ∧
    (∀ (items : List TriageItem) (idv a : String) (tp : Option String)
        (now : String) (r : TriageItem) (l : List TriageItem)
        (effs : List QueueEffect),
        markReviewed items idv a tp now = (some r, l, effs) →
        r.status = TriageItemStatus.reviewed) := by
  refine ⟨?_, ?_, ?_⟩
  · intro i items ops h1 h2
    exact noRevert_applyOps ops items h1 h2
  · intro items idv now r l effs h
    obtain ⟨e, -, -, hm⟩ := updateItem_result items idv _ r l effs h
    rw [hm]; rfl
  · intro items idv a tp now r l effs h
    obtain ⟨e, -, -, hm⟩ := updateItem_result items idv _ r l effs h
    rw [hm]; rfl

/-- C3 (witness): a reviewed item stays non-pending across a dismissal, a
status-free update and a purge. -/
theorem C3_status_monotonic_amended_witness :
    NoRevert "i1"
      (applyOps
        [{ id := "i1", filePath := "p", fileName := "p", triageTime := "t0",
           suggestion := { category := TriageCategory.UNCLEAR, title := "x",
                           confidence := 0 },
           status := TriageItemStatus.reviewed }]
        [QOp.dismiss "i1" "t1",
         QOp.update "i1" { actionTaken := some "noted" },
         QOp.clear]) := by
  have h := C3_status_monotonic_amended
  refine h.1 "i1" _ _ ?_ ?_
  · intro it hit hid
    simp only [List.mem_singleton] at hit
    subst hit
    decide
  · intro op hop
    simp only [List.mem_cons, List.not_mem_nil, or_false] at hop
    rcases hop with rfl | rfl | rfl
    · simp [OkOp]
    · simp [OkOp]
    · simp [OkOp]

/-- C4 (counterexample): the claim says every completion both decrements
the in-flight count and re-attempts the drain.  The completion handler
embedded from the source only decrements: from a state with one queued
unit and a full slot just freed, the handler leaves the unit queued and
unstarted — a drain re-attempt at that very state would have started it,
so no drain re-attempt is performed on completion. -/
theorem C4_completion_counterexample :
    let s : DispatchState :=
      { fileQueue := ["f2"], processing := false, activeTriages := 1,
        retryScheduled := true, started := ["f1"], completed := 0 }
    completeTriage s =
      { fileQueue := ["f2"], processing := false, activeTriages := 0,
        retryScheduled := true, started := ["f1"], completed := 1 } ∧
    processQueue 1 (completeTriage s) ≠ completeTriage s ∧
    (processQueue 1 (completeTriage s)).started = ["f1", "f2"] := by
  refine ⟨rfl, ?_, rfl⟩
  decide

/-- C4 (amended): on completion (success or failure) only the in-flight
count is decremented — the queue and the start log are untouched; the
drain is re-attempted instead by the retry that any drain pass ending
with a non-empty queue schedules (and by later enqueues). -/
theorem C4_completion_amended :
    (∀ s : DispatchState,
        (completeTriage s).activeTriages = s.activeTriages - 1 ∧
        (completeTriage s).fileQueue = s.fileQueue ∧
        (completeTriage s).started = s.started) ∧
    (∀ (maxC : Nat) (s : DispatchState), s.processing = false →
        (processQueue maxC s).fileQueue ≠ [] →
        (processQueue maxC s).retryScheduled = true) := by
  constructor
  · intro s; exact ⟨rfl, rfl, rfl⟩
  · intro maxC s hp hne
    simp only [processQueue, hp, Bool.false_eq_true, if_false] at hne ⊢
    cases hq : (drainLoop maxC s.fileQueue s.activeTriages).1 with
    | nil => rw [hq] at hne; simp at hne
    | cons x xs => rfl

/-- C4 (witness): the completion handler decrements a concrete counter,
and a drain pass that cannot start the queued units (all slots busy)
schedules the retry. -/
theorem C4_completion_amended_witness :
    (completeTriage
      { fileQueue := [], processing := false, activeTriages := 2,
        retryScheduled := false, started := ["a", "b"], completed := 0 }).activeTriages
        = 2 - 1 ∧
    (processQueue 2
      { fileQueue := ["c", "d", "e"], processing := false, activeTriages := 2,
        retryScheduled := false, started := ["a", "b"],
        completed := 0 }).retryScheduled = true := by
  have h := C4_completion_amended
  exact ⟨(h.1 _).1, h.2 2 _ rfl (by decide)⟩

/-- C5: for every sequence of scheduler steps (enqueues, drains, retries,
completions) from plugin start, the number of outstanding classification
calls — ghost-started minus ghost-completed, which equals the
`activeTriages` counter — never exceeds the configured maximum. -/
theorem C5_concurrency_bound (maxC : Nat) (s : DispatchState)
    (h : DispatchReachable maxC s) :
    s.started.length - s.completed ≤ maxC ∧ s.activeTriages ≤ maxC := by
  obtain ⟨h1, h2, h3⟩ := dispatch_inv_reachable h
  exact ⟨by omega, h1⟩

/-- C5 (witness): the bound holds at a concrete reachable state (one unit
enqueued and drained under `maxConcurrent = 2`). -/
theorem C5_concurrency_bound_witness :
    (processQueue 2 (pushFile initDispatch "f1")).activeTriages ≤ 2 ∧
    (processQueue 2 (pushFile initDispatch "f1")).started.length
      - (processQueue 2 (pushFile initDispatch "f1")).completed ≤ 2 := by
  have hr : DispatchReachable 2 (processQueue 2 (pushFile initDispatch "f1")) :=
    DispatchReachable.step DispatchReachable.init
      (DispatchStep.enqueue "f1" initDispatch)
  have h := C5_concurrency_bound 2 _ hr
  exact ⟨h.2, h.1⟩

/-- C6: (at-most-one-timer) after any run of debouncer actions from a
state whose timer keys are duplicate-free, every path still owns at most
one live timer; and (exactly-once) for every burst of events on a watched
path at strictly increasing times with consecutive gaps below
`debounceDelay`, merged time-sorted with the callbacks each event
schedules, exactly one settled signal is emitted, stamped `debounceDelay`
after the last event, and no timer survives. -/
theorem C6_debounce_burst :
    (∀ (delay : Nat) (tm sig : List (String × Nat)) (acts : List DAct)
        (p : String),
        (tm.map Prod.fst).Nodup →
        ((dRun delay ⟨tm, sig⟩ acts).timers.map Prod.fst).count p ≤ 1) ∧
    (∀ (delay : Nat) (p : String) (ts bs : List Nat) (lastT : Nat),
        0 < delay →
        ts.Chain' (· < ·) →
        ts.Chain' (fun a b => b < a + delay) →
        bs.length = ts.length →
        SortedBlocks (fun t => t) delay [] ts bs →
        ts.getLast? = some lastT →
        dRun delay ⟨[], []⟩ (dTimeline p ts (ts.map (fun t => t + delay)) bs) =
          ⟨[], [(p, lastT + delay)]⟩) := by
  constructor
  · intro delay tm sig acts p hnd
    exact List.nodup_iff_count_le_one.mp (dRun_nodup delay acts ⟨tm, sig⟩ hnd) p
  · intro delay p ts bs lastT hd hchain hgap hlen hsb hlast
    have hv : ValidBlocks ([] : List Nat) ts bs :=
      validBlocks_of_sorted (fun t => t) delay hd bs [] ts hsb
        (by simpa using hgap) (by simpa using hlen)
    have hrun := dRun_burst p delay bs [] ts [] lastT hv
      (by simpa using hchain) (by simpa using hlast)
    simpa [tmOf] using hrun

/-- C6 (witness): the spec scenario — events on `"Emails/a.md"` at t = 0,
50, 80 ms with `debounceDelay = 100` ms produce exactly one settled
signal, at t = 180 ms; and a concrete single-entry timer map keeps at most
one timer for the path after an event. -/
theorem C6_debounce_burst_witness :
    dRun 100 ⟨[], []⟩ (dTimeline "Emails/a.md" [0, 50, 80]
        ([0, 50, 80].map (fun t => t + 100)) [3, 0, 0]) =
      ⟨[], [("Emails/a.md", 180)]⟩ ∧
    ((dRun 100 ⟨[("Emails/a.md", 42)], []⟩
        [DAct.ev "Emails/a.md" 5]).timers.map Prod.fst).count "Emails/a.md" ≤ 1 := by
  have h := C6_debounce_burst
  constructor
  · have hx := h.2 100 "Emails/a.md" [0, 50, 80] [3, 0, 0] 80
      (by decide) (by simp [List.chain'_cons]) (by simp [List.chain'_cons])
      (by decide) (by simp [SortedBlocks]) (by decide)
    simpa using hx
  · exact h.1 100 [("Emails/a.md", 42)] [] [DAct.ev "Emails/a.md" 5]
      "Emails/a.md" (by simp)

/-- C7: (quiet-check behavior) when a scheduled quiet-check fires for a
conversation whose buffer exists, it dispatches the buffer's full member
list as one unit and deletes the buffer precisely when
`now − lastUpdate ≥ batchWindow`, and otherwise — or when the buffer is
already gone — does nothing; (exactly-once) a conversation burst at
strictly increasing times with consecutive gaps below the window, merged
time-sorted with its scheduled quiet-checks, is dispatched exactly once,
as one unit carrying every member accumulated, and the buffer is gone
afterwards. -/
theorem C7_teams_batch :
    (∀ (buffers : List (String × TeamsBuffer)) (c : String) (now w : Nat),
        (∀ b, amapGet buffers c = some b →
          checkTeamsBatch buffers c now w =
            (if (w : Int) ≤ (now : Int) - (b.lastUpdate : Int)
             then (amapDelete buffers c, [b.files])
             else (buffers, []))) ∧
        (amapGet buffers c = none →
          checkTeamsBatch buffers c now w = (buffers, []))) ∧
    (∀ (w : Nat) (c : String) (pairs : List (Nat × String)) (bs : List Nat),
        0 < w →
        pairs.Chain' (fun x y => x.1 < y.1) →
        pairs.Chain' (fun x y => y.1 < x.1 + w) →
        bs.length = pairs.length →
        SortedBlocks (fun e => e.1) w [] pairs bs →
        tRun c w ([], []) (tTimeline pairs (pairs.map (fun e => e.1 + w)) bs) =
          ([], [pairs.map Prod.snd])) := by
  constructor
  · intro buffers c now w
    constructor
    · intro b hb
      simp [checkTeamsBatch, hb]
    · intro hb
      simp [checkTeamsBatch, hb]
  · intro w c pairs bs hw hchain hgap hlen hsb
    have hv : ValidBlocks ([] : List (Nat × String)) pairs bs :=
      validBlocks_of_sorted (fun e : Nat × String => e.1) w hw bs [] pairs hsb
        (by simpa using hgap) (by simpa using hlen)
    have hrun := tRun_burst c w bs [] pairs [] [] hv
      (by simpa using hchain) (fun _ => rfl)
    simpa [bufOf] using hrun

/-- C7 (witness): two messages of conversation `"19_abc"` at t = 0 and
t = 60 with a 100 ms window are dispatched exactly once, as the single
unit `["f1", "f2"]`, by the second scheduled quiet-check. -/
theorem C7_teams_batch_witness :
    tRun "19_abc" 100 ([], [])
      (tTimeline [(0, "f1"), (60, "f2")]
        ([(0, "f1"), (60, "f2")].map (fun e => e.1 + 100)) [2, 0]) =
      ([], [["f1", "f2"]]) := by
  have h := C7_teams_batch
  have hx := h.2 100 "19_abc" [(0, "f1"), (60, "f2")] [2, 0]
    (by decide) (by simp [List.chain'_cons]) (by simp [List.chain'_cons])
    (by decide) (by simp [SortedBlocks])
  simpa using hx

/-- C8: `updateItem` on a stored id rewrites exactly the matched item in
place (persisting and notifying), and the merge changes exactly the
provided fields: every absent field keeps its stored value — never nulled
— and every provided field takes the provided value; the id is always
kept. -/
theorem C8_updateItem_frame (pre post : List TriageItem) (e : TriageItem)
    (u : TriageItemUpdate) (hpre : ∀ it ∈ pre, it.id ≠ e.id) :
    updateItem (pre ++ e :: post) e.id u =
      (some (mergeItem e u), pre ++ mergeItem e u :: post,
        [QueueEffect.save, QueueEffect.notify]) ∧
    (mergeItem e u).id = e.id ∧
    ((u.filePath = none → (mergeItem e u).filePath = e.filePath) ∧
      ∀ v, u.filePath = some v → (mergeItem e u).filePath = v) ∧
    ((u.fileName = none → (mergeItem e u).fileName = e.fileName) ∧
      ∀ v, u.fileName = some v → (mergeItem e u).fileName = v) ∧
    ((u.triageTime = none → (mergeItem e u).triageTime = e.triageTime) ∧
      ∀ v, u.triageTime = some v → (mergeItem e u).triageTime = v) ∧
    ((u.suggestion = none → (mergeItem e u).suggestion = e.suggestion) ∧
      ∀ v, u.suggestion = some v → (mergeItem e u).suggestion = v) ∧
    ((u.status = none → (mergeItem e u).status = e.status) ∧
      ∀ v, u.status = some v → (mergeItem e u).status = v) ∧
    ((u.userEdits = none → (mergeItem e u).userEdits = e.userEdits) ∧
      ∀ v, u.userEdits = some v → (mergeItem e u).userEdits = some v) ∧
    ((u.actionTaken = none → (mergeItem e u).actionTaken = e.actionTaken) ∧
      ∀ v, u.actionTaken = some v → (mergeItem e u).actionTaken = some v) ∧
    ((u.actionTime = none → (mergeItem e u).actionTime = e.actionTime) ∧
      ∀ v, u.actionTime = some v → (mergeItem e u).actionTime = some v) ∧
    ((u.createdTaskPath = none →
        (mergeItem e u).createdTaskPath = e.createdTaskPath) ∧
      ∀ v, u.createdTaskPath = some v →
        (mergeItem e u).createdTaskPath = some v) := by
  refine ⟨?_, rfl, ?_, ?_, ?_, ?_, ?_, ?_, ?_, ?_, ?_⟩
  · unfold updateItem
    rw [updateItemGo_first e.id u e post rfl pre hpre]
  · exact ⟨fun h => by simp [mergeItem, h], fun v h => by simp [mergeItem, h]⟩
  · exact ⟨fun h => by simp [mergeItem, h], fun v h => by simp [mergeItem, h]⟩
  · exact ⟨fun h => by simp [mergeItem, h], fun v h => by simp [mergeItem, h]⟩
  · exact ⟨fun h => by simp [mergeItem, h], fun v h => by simp [mergeItem, h]⟩
  · exact ⟨fun h => by simp [mergeItem, h], fun v h => by simp [mergeItem, h]⟩
  · exact ⟨fun h => by simp [mergeItem, h], fun v h => by simp [mergeItem, h]⟩
  · exact ⟨fun h => by simp [mergeItem, h], fun v h => by simp [mergeItem, h]⟩
  · exact ⟨fun h => by simp [mergeItem, h], fun v h => by simp [mergeItem, h]⟩
  · exact ⟨fun h => by simp [mergeItem, h], fun v h => by simp [mergeItem, h]⟩

/-- C8 (witness): a concrete partial update providing only the status and
the action fields changes those and leaves the path, the suggestion and
the task path of the stored item untouched. -/
theorem C8_updateItem_frame_witness :
    let e : TriageItem :=
      { id := "i9", filePath := "Emails/b.md", fileName := "b.md",
        triageTime := "t0",
        suggestion := { category := TriageCategory.CHANGE_ORDER, title := "co",
                        confidence := 7 / 10 },
        status := TriageItemStatus.pending,
        createdTaskPath := some "TaskNotes/x.md" }
    let u : TriageItemUpdate :=
      { status := some TriageItemStatus.reviewed,
        actionTaken := some "created_task" }
    (mergeItem e u).filePath = "Emails/b.md" ∧
    (mergeItem e u).createdTaskPath = some "TaskNotes/x.md" ∧
    (mergeItem e u).status = TriageItemStatus.reviewed ∧
    (mergeItem e u).actionTaken = some "created_task" ∧
    updateItem [e] "i9" u =
      (some (mergeItem e u), [mergeItem e u],
        [QueueEffect.save, QueueEffect.notify]) := by
  intro e u
  have h := C8_updateItem_frame [] [] e u (by simp)
  exact ⟨(h.2.2.1.1) rfl, (h.2.2.2.2.2.2.2.2.2.2.1) rfl,
    (h.2.2.2.2.2.2.1.2) TriageItemStatus.reviewed rfl,
    (h.2.2.2.2.2.2.2.2.1.2) "created_task" rfl, h.1⟩

/-- C9: the sensitivity filter fails open — whatever exception the
source-content read throws, `isSensitiveFile` reports the source as not
excluded (`false`) instead of excluding it or propagating the error. -/
theorem C9_sensitive_fail_open (e : ReadError)
    (sensitivePatterns skipTaggedFiles : List String) :
    isSensitiveFile (Except.error e) sensitivePatterns skipTaggedFiles = false :=
  rfl

/-- C10: when no stored item carries the requested id, `updateItem`
returns `null` and `removeItem` returns `false`, and in both cases the
collection is untouched and neither a persistence write nor a listener
notification happens. -/
theorem C10_missing_id_noop (items : List TriageItem) (idv : String)
    (u : TriageItemUpdate) (h : ∀ it ∈ items, it.id ≠ idv) :
    updateItem items idv u = (none, items, []) ∧
    removeItem items idv = (false, items, []) := by
  constructor
  · unfold updateItem
    rw [updateItemGo_none idv u items h]
  · unfold removeItem
    rw [removeItemGo_none idv items h]

/-- C10 (witness): a concrete miss — one stored item, a different id —
returns the failure values and leaves everything unchanged with no
effects. -/
theorem C10_missing_id_noop_witness :
    let e : TriageItem :=
      { id := "i1", filePath := "p", fileName := "p", triageTime := "t0",
        suggestion := { category := TriageCategory.INFORMATIONAL, title := "x",
                        confidence := 1 / 2 },
        status := TriageItemStatus.pending }
    updateItem [e] "zz" { status := some TriageItemStatus.reviewed } =
      (none, [e], []) ∧
    removeItem [e] "zz" = (false, [e], []) := by
  intro e
  exact C10_missing_id_noop [e] "zz" _ (by decide)

end Triage
